import Mathlib

/-!
Shallow embedding of `spelling_bee.py` (Riddler Classic "Spelling Bee" solver).

Python strings are modelled as `List Char`, Python `frozenset`s of letters as
`Finset Char`, Python `dict`s (which preserve insertion order and overwrite on
re-assignment of an existing key) as association lists `List (K × V)` with an
order-preserving overwriting insert, and integer scores as `Nat` (all scores in
the program are non-negative).  Where the Python code iterates over a set in
unspecified order (`from_letters`, `letter_subsets`), the embedding iterates in
sorted order; every property proved below is insensitive to that order.
-/

namespace SpellingBeeProof

/-- `ADMISSIBLE_LETTERS = 'abcdefghijklmnopqrtuvwxyz'` — the whole English
alphabet except for `'s'` (module-level constant of the source). -/
def ADMISSIBLE_LETTERS : List Char := "abcdefghijklmnopqrtuvwxyz".toList

/-- The admissible alphabet as a set of characters. -/
def admissibleSet : Finset Char := ADMISSIBLE_LETTERS.toFinset

/-- `powerset(iterable)`: standard-recipe powerset,
`chain.from_iterable(combinations(xs, n) for n in range(len(xs)+1))`.
`combinations(xs, n)` enumerates the length-`n` subsequences of `xs`, which is
exactly `List.sublistsLen n xs` (up to the order of the tuples, which no
property below depends on). -/
def powerset {α : Type} (xs : List α) : List (List α) :=
  (List.range (xs.length + 1)).flatMap (fun n => List.sublistsLen n xs)

/-- The ascending list of the members of a finite set of characters (Python's
`sorted(list(charset))`).  Implemented by insertion sort through the quotient
so that it evaluates inside the kernel. -/
def sortedLetters (s : Finset Char) : List Char :=
  Quotient.liftOn s.val (fun l => List.insertionSort (fun a b => a ≤ b) l)
    (fun a b hab =>
      List.eq_of_perm_of_sorted
        ((List.perm_insertionSort _ a).trans
          (hab.trans (List.perm_insertionSort _ b).symm))
        (List.sorted_insertionSort _ a) (List.sorted_insertionSort _ b))

/-- `sortedLetters` agrees with Mathlib's `Finset.sort`. -/
theorem sortedLetters_eq_sort (s : Finset Char) :
    sortedLetters s = s.sort (· ≤ ·) := by
  show Quotient.liftOn s.val _ _ = Multiset.sort _ s.val
  induction s.val using Quotient.inductionOn with
  | h l =>
    refine List.eq_of_perm_of_sorted ?_ (List.sorted_insertionSort _ l)
      (Multiset.sort_sorted _ _)
    refine (List.perm_insertionSort _ l).trans ?_
    exact (Quotient.exact (Multiset.sort_eq (· ≤ ·) (⟦l⟧ : Multiset Char))).symm

/-- `set2str(charset)`: converts a set of letters into a sorted string. -/
def set2str (charset : Finset Char) : List Char :=
  sortedLetters charset

/-- `chr(ord(c) + ord('A') - ord('a'))`: capitalize a (lowercase) character.
Python computes `ord(c) + 65 - 97` in ℤ; for the characters this program
applies it to (`c ≥ ' '`) the truncated `Nat` subtraction below agrees. -/
def upChar (c : Char) : Char := Char.ofNat (c.toNat + 65 - 97)

/-- `Word`: a word with its properties, computed at initialization. -/
structure Word where
  word : List Char
  val : Nat
  letters : Finset Char
  n_letters : Nat
deriving DecidableEq

/-- `Word.word_val(word)`: computes the value of a word according to the rules
of the game.  Returns `(word_val, letters, n_letters)`. -/
def Word.word_val (word : List Char) : Nat × Finset Char × Nat :=
  let word_len := word.length
  let letters := word.toFinset
  let n_letters := letters.card
  let v : Nat :=
    if word_len > 4 then
      (if n_letters ≥ 7 then word_len + 7 else word_len)
    else if word_len = 4 then 1
    else 0
  (v, letters, n_letters)

/-- `Word.__init__`: stores the word together with `word_val`'s results. -/
def Word.init (w : List Char) : Word :=
  ⟨w, (Word.word_val w).1, (Word.word_val w).2.1, (Word.word_val w).2.2⟩

/-- `Word.is_valuable`: a word is valuable if worth more than zero points. -/
def Word.is_valuable (w : Word) : Bool := w.val > 0

/-- `LetterSet`: a letter set with the list of valuable words sharing it. -/
structure LetterSet where
  letters : Finset Char
  n_letters : Nat
  words : List Word
  val : Nat
deriving DecidableEq

/-- `LetterSet.__init__(letters)`. -/
def LetterSet.init (letters : Finset Char) : LetterSet :=
  ⟨letters, letters.card, [], 0⟩

/-- `LetterSet.add_word(word)`: appends the word and accumulates its value. -/
def LetterSet.add_word (ls : LetterSet) (w : Word) : LetterSet :=
  { ls with words := ls.words ++ [w], val := ls.val + w.val }

/-- The `all_letter_sets` dict: association list from letter set to entry,
in insertion order (as a Python dict). -/
abbrev Index := List (Finset Char × LetterSet)

/-- Python `key in dict` / `dict[key]` lookup (keys are unique in a dict;
on an association list we take the first match). -/
def findEntry (idx : Index) (k : Finset Char) : Option LetterSet :=
  (idx.find? (fun p => decide (p.1 = k))).map Prod.snd

/-- `index.lookup(S).totalScore` with an absent lookup contributing 0. -/
def lookupVal (idx : Index) (k : Finset Char) : Nat :=
  ((findEntry idx k).map LetterSet.val).getD 0

/-- Python dict assignment `d[k] = v`: overwrite in place if the key exists
(keeping its position), else append at the end. -/
def dictInsert {K V : Type} [DecidableEq K] (d : List (K × V)) (k : K) (v : V) :
    List (K × V) :=
  if (d.find? (fun p => decide (p.1 = k))).isSome then
    d.map (fun p => if p.1 = k then (k, v) else p)
  else d ++ [(k, v)]

/-- `SpellingBee`: a spelling bee puzzle. -/
structure SpellingBee where
  letters : Finset Char
  center_letter : Char
  key : List Char
  letter_sets : List (Finset Char × LetterSet)
  val : Nat
deriving DecidableEq

/-- `SpellingBee.get_key`: the puzzle as a sorted string where only the
central letter is capitalized. -/
def get_key (letters : Finset Char) (center_letter : Char) : List Char :=
  (set2str letters).map (fun c => if c = center_letter then upChar c else c)

/-- `SpellingBee.__init__(letters, center_letter)`. -/
def SpellingBee.init (letters : Finset Char) (center_letter : Char) :
    SpellingBee :=
  ⟨letters, center_letter, get_key letters center_letter, [], 0⟩

/-- `SpellingBee.from_letters(seven_letters)`: all spelling bees possible with
the given letters, by varying the central letter; collected in a dict keyed by
`get_key`.  (Python iterates the set in unspecified order; we iterate in
sorted order.) -/
def SpellingBee.from_letters (seven_letters : Finset Char) :
    List (List Char × SpellingBee) :=
  (sortedLetters seven_letters).foldl
    (fun d letter =>
      dictInsert d (get_key seven_letters letter)
        (SpellingBee.init seven_letters letter))
    []

/-- `SpellingBee.letter_subsets`: all letter subsets of this puzzle including
at least the central letter:
`[frozenset([center] + list(ls)) for ls in powerset(letters - {center})]`. -/
def SpellingBee.letter_subsets (sb : SpellingBee) : List (Finset Char) :=
  (powerset (sortedLetters (sb.letters.erase sb.center_letter))).map
    (fun ls => insert sb.center_letter ls.toFinset)

/-- The body of `SpellingBee.evaluate`'s loop: if the candidate `key` is in
the index, record the entry in `letter_sets` and accumulate its value into
`val`; otherwise do nothing ("key not found" is not an error). -/
def evalStep (all_letter_sets : Index) (acc : SpellingBee) (key : Finset Char) :
    SpellingBee :=
  match findEntry all_letter_sets key with
  | some ls =>
      { acc with
        letter_sets := dictInsert acc.letter_sets key ls,
        val := acc.val + ls.val }
  | none => acc

/-- `SpellingBee.evaluate(all_letter_sets)`: for each candidate subset found in
the index, record the entry in `letter_sets` and accumulate its value into
`val`.  Note that `val` is accumulated on top of its current contents — the
method never resets it. -/
def SpellingBee.evaluate (sb : SpellingBee) (all_letter_sets : Index) :
    SpellingBee :=
  sb.letter_subsets.foldl (evalStep all_letter_sets) sb

/-- `SpellingBee.get_words`: all valuable words found in this puzzle
(concatenation of the words of every matched entry, in dict order). -/
def SpellingBee.get_words (sb : SpellingBee) : List Word :=
  sb.letter_sets.flatMap (fun p => p.2.words)

/-- The indexing step alone (lines 154–159): add one word to the
`all_letter_sets` dict — create the entry keyed by the word's letter set if
absent, then `add_word`. -/
def addWordToIndex (idx : Index) (word : Word) : Index :=
  let idx0 :=
    if (findEntry idx word.letters).isSome then idx
    else idx ++ [(word.letters, LetterSet.init word.letters)]
  idx0.map (fun p =>
    if p.1 = word.letters then (p.1, p.2.add_word word) else p)

/-- State of the module-level word-parsing loop: the `valuable_words` list,
the `all_letter_sets` dict, and the diagnostic messages printed so far
(we record the word of each `'Word %s has only one letter!'` print). -/
structure ParseState where
  valuable_words : List Word
  all_letter_sets : Index
  messages : List (List Char)
deriving DecidableEq

/-- One iteration of the parsing loop (lines 146–159 of the source): build the
`Word`, and if it is valuable, has at most 7 distinct letters and contains no
`'s'`, print the one-letter diagnostic when it has exactly one distinct
letter, append it to `valuable_words`, and insert it into the entry keyed by
its letter set (creating the entry first if absent). -/
def parseStep (st : ParseState) (line : List Char) : ParseState :=
  let word := Word.init line
  if word.is_valuable ∧ word.n_letters ≤ 7 ∧ 's' ∉ word.letters then
    ⟨st.valuable_words ++ [word],
      addWordToIndex st.all_letter_sets word,
      if word.n_letters = 1 then st.messages ++ [word.word] else st.messages⟩
  else st

/-- The whole parsing loop over the input word list (each line already
stripped, as the source does with `line.strip()`). -/
def parseWords (input : List (List Char)) : ParseState :=
  input.foldl parseStep ⟨[], [], []⟩

/-- Sort key order for spelling bees: `(-el.val, el.key)` ascending. -/
def puzzleLE (a b : SpellingBee) : Prop :=
  b.val < a.val ∨ (a.val = b.val ∧ a.key ≤ b.key)

/-- Strict version of `puzzleLE`. -/
def puzzleLT (a b : SpellingBee) : Prop :=
  b.val < a.val ∨ (a.val = b.val ∧ a.key < b.key)

/-- Sort key order for words: `(-w.val, w.word)` ascending. -/
def wordLE (a b : Word) : Prop :=
  b.val < a.val ∨ (a.val = b.val ∧ a.word ≤ b.word)

/-- Strict version of `wordLE`. -/
def wordLT (a b : Word) : Prop :=
  b.val < a.val ∨ (a.val = b.val ∧ a.word < b.word)

instance : DecidableRel puzzleLE := fun a b => by
  unfold puzzleLE; infer_instance

instance : DecidableRel puzzleLT := fun a b => by
  unfold puzzleLT; infer_instance

instance : DecidableRel wordLE := fun a b => by
  unfold wordLE; infer_instance

instance : DecidableRel wordLT := fun a b => by
  unfold wordLT; infer_instance

/-- `ranked_spelling_bees.sort(key=lambda el: (-el.val, el.key))`, applied to a
fresh list built from the input (the input collection is untouched).  Python's
sort is a stable comparison sort; we model it with insertion sort, which is
also stable — all ranking properties proved below (permutation, sortedness,
strictness under distinct keys) are shared by every stable sort. -/
def rankPuzzles (sbs : List SpellingBee) : List SpellingBee :=
  sbs.insertionSort puzzleLE

/-- `sorted(top_words, key=lambda w: (-w.val, w.word))`. -/
def rankWords (ws : List Word) : List Word :=
  ws.insertionSort wordLE

/-! ### Helper lemmas about `powerset` and sublists -/

theorem sublist_eq_of_perm_of_nodup {α : Type} :
    ∀ {l s t : List α}, List.Sublist s l → List.Sublist t l → l.Nodup → List.Perm s t → s = t := by
  intro l
  induction l with
  | nil =>
    intro s t hs ht _ _
    rw [List.sublist_nil.mp hs, List.sublist_nil.mp ht]
  | cons a l ih =>
    intro s t hs ht hnd hp
    cases hs with
    | cons _ hs' =>
      cases ht with
      | cons _ ht' => exact ih hs' ht' hnd.of_cons hp
      | cons₂ _ ht' =>
        exfalso
        have ha : a ∈ s := hp.symm.subset (List.mem_cons_self a _)
        exact (List.nodup_cons.mp hnd).1 (hs'.subset ha)
    | cons₂ _ hs' =>
      cases ht with
      | cons _ ht' =>
        exfalso
        have ha : a ∈ t := hp.subset (List.mem_cons_self a _)
        exact (List.nodup_cons.mp hnd).1 (ht'.subset ha)
      | cons₂ _ ht' => rw [ih hs' ht' hnd.of_cons hp.cons_inv]

theorem sublist_eq_of_toFinset_eq {α : Type} [DecidableEq α] {l s t : List α}
    (hs : s.Sublist l) (ht : t.Sublist l) (hnd : l.Nodup) (h : s.toFinset = t.toFinset) :
    s = t :=
  sublist_eq_of_perm_of_nodup hs ht hnd
    (List.perm_of_nodup_nodup_toFinset_eq (List.Nodup.sublist hs hnd)
      (List.Nodup.sublist ht hnd) h)

theorem mem_powerset {α : Type} {s xs : List α} : s ∈ powerset xs ↔ List.Sublist s xs := by
  simp only [powerset, List.mem_flatMap, List.mem_range, List.mem_sublistsLen]
  constructor
  · rintro ⟨n, _, hs, _⟩
    exact hs
  · intro hs
    exact ⟨s.length, Nat.lt_succ_of_le hs.length_le, hs, rfl⟩

theorem list_range_map_sum (f : Nat → Nat) (n : Nat) :
    ((List.range n).map f).sum = ∑ i ∈ Finset.range n, f i := by
  induction n with
  | zero => simp
  | succ n ih =>
    rw [List.range_succ, List.map_append, List.sum_append, Finset.sum_range_succ,
      ih]
    simp

theorem length_powerset {α : Type} (xs : List α) :
    (powerset xs).length = 2 ^ xs.length := by
  rw [powerset, List.length_flatMap]
  simp only [Function.comp_def]
  have h : ((List.range (xs.length + 1)).map
        fun n => (List.sublistsLen n xs).length).sum
      = ((List.range (xs.length + 1)).map
        fun n => xs.length.choose n).sum := by
    congr 1
    apply List.map_congr_left
    intro n _
    exact List.length_sublistsLen n xs
  rw [h, list_range_map_sum, Nat.sum_range_choose]

theorem nodup_powerset {α : Type} {xs : List α} (h : xs.Nodup) :
    (powerset xs).Nodup := by
  rw [powerset, List.nodup_flatMap]
  refine ⟨fun n _ => List.nodup_sublistsLen n h, ?_⟩
  refine List.Pairwise.imp ?_ (List.nodup_range (xs.length + 1))
  intro m n hmn
  intro l hlm hln
  exact hmn ((List.mem_sublistsLen.mp hlm).2 ▸ (List.mem_sublistsLen.mp hln).2 ▸ rfl)

theorem exists_sublist_toFinset {α : Type} [DecidableEq α] {xs : List α}
    {t : Finset α} (ht : t ⊆ xs.toFinset) : ∃ s : List α, List.Sublist s xs ∧ s.toFinset = t := by
  refine ⟨xs.filter (fun a => decide (a ∈ t)), List.filter_sublist xs, ?_⟩
  ext a
  simp only [List.mem_toFinset, List.mem_filter, decide_eq_true_eq]
  exact ⟨fun hh => hh.2, fun hh => ⟨List.mem_toFinset.mp (ht hh), hh⟩⟩

/-! ### Lemmas about `findEntry` -/

theorem findEntry_cons (p : Finset Char × LetterSet) (l : Index)
    (k : Finset Char) :
    findEntry (p :: l) k = if p.1 = k then some p.2 else findEntry l k := by
  by_cases h : p.1 = k <;> simp [findEntry, List.find?_cons, h]

theorem findEntry_append (l₁ l₂ : Index) (k : Finset Char) :
    findEntry (l₁ ++ l₂) k
      = ((findEntry l₁ k).rec (findEntry l₂ k) (fun ls => some ls)) := by
  induction l₁ with
  | nil => rfl
  | cons p l ih =>
    rw [List.cons_append, findEntry_cons, findEntry_cons]
    by_cases h : p.1 = k <;> simp [h, ih]

theorem findEntry_map_addword (l : Index) (w : Word) (k : Finset Char) :
    findEntry
        (l.map (fun p => if p.1 = w.letters then (p.1, p.2.add_word w) else p)) k
      = (findEntry l k).map
          (fun ls => if k = w.letters then ls.add_word w else ls) := by
  induction l with
  | nil => rfl
  | cons p l ih =>
    rw [List.map_cons, findEntry_cons, findEntry_cons]
    by_cases hp : p.1 = w.letters
    · by_cases hk : p.1 = k
      · have hkw : k = w.letters := by rw [← hk, hp]
        simp [hp, hk, hkw]
      · have hwk : ¬w.letters = k := fun h => hk (by rw [hp, h])
        simp [hp, hk, hwk, ih]
    · by_cases hk : p.1 = k
      · have hkw : ¬k = w.letters := fun h => hp (by rw [hk, h])
        simp [hp, hk, hkw]
      · simp [hp, hk, ih]

/-! ### Lemmas about `evaluate` -/

theorem evalStep_val (idx : Index) (acc : SpellingBee) (k : Finset Char) :
    (evalStep idx acc k).val = acc.val + lookupVal idx k := by
  rcases h : findEntry idx k with _ | ls <;> simp [evalStep, h, lookupVal]

theorem evalStep_letters (idx : Index) (acc : SpellingBee) (k : Finset Char) :
    (evalStep idx acc k).letters = acc.letters ∧
    (evalStep idx acc k).center_letter = acc.center_letter ∧
    (evalStep idx acc k).key = acc.key := by
  rcases h : findEntry idx k with _ | ls <;> simp [evalStep, h]

theorem foldl_evalStep_val (idx : Index) :
    ∀ (keys : List (Finset Char)) (acc : SpellingBee),
      (keys.foldl (evalStep idx) acc).val
        = acc.val + (keys.map (lookupVal idx)).sum := by
  intro keys
  induction keys with
  | nil => intro acc; simp
  | cons k ks ih =>
    intro acc
    rw [List.foldl_cons, ih, List.map_cons, List.sum_cons, evalStep_val]
    omega

theorem foldl_evalStep_letters (idx : Index) :
    ∀ (keys : List (Finset Char)) (acc : SpellingBee),
      (keys.foldl (evalStep idx) acc).letters = acc.letters ∧
      (keys.foldl (evalStep idx) acc).center_letter = acc.center_letter ∧
      (keys.foldl (evalStep idx) acc).key = acc.key := by
  intro keys
  induction keys with
  | nil => intro acc; exact ⟨rfl, rfl, rfl⟩
  | cons k ks ih =>
    intro acc
    rw [List.foldl_cons]
    refine ⟨?_, ?_, ?_⟩
    · rw [(ih _).1, (evalStep_letters idx acc k).1]
    · rw [(ih _).2.1, (evalStep_letters idx acc k).2.1]
    · rw [(ih _).2.2, (evalStep_letters idx acc k).2.2]

theorem evaluate_val (sb : SpellingBee) (idx : Index) :
    (sb.evaluate idx).val = sb.val + (sb.letter_subsets.map (lookupVal idx)).sum :=
  foldl_evalStep_val idx sb.letter_subsets sb

theorem evaluate_letters (sb : SpellingBee) (idx : Index) :
    (sb.evaluate idx).letters = sb.letters ∧
    (sb.evaluate idx).center_letter = sb.center_letter ∧
    (sb.evaluate idx).key = sb.key :=
  foldl_evalStep_letters idx sb.letter_subsets sb

theorem evaluate_letter_subsets (sb : SpellingBee) (idx : Index) :
    (sb.evaluate idx).letter_subsets = sb.letter_subsets := by
  unfold SpellingBee.letter_subsets
  rw [(evaluate_letters sb idx).1, (evaluate_letters sb idx).2.1]

/-! ### Lemmas about `letter_subsets` -/

theorem mem_letter_subsets {sb : SpellingBee}
    (hc : sb.center_letter ∈ sb.letters) {T : Finset Char} :
    T ∈ sb.letter_subsets ↔ T ⊆ sb.letters ∧ sb.center_letter ∈ T := by
  unfold SpellingBee.letter_subsets
  rw [sortedLetters_eq_sort]
  simp only [List.mem_map, mem_powerset]
  constructor
  · rintro ⟨ls, hls, rfl⟩
    have hsub : ls.toFinset ⊆ sb.letters.erase sb.center_letter := by
      intro x hx
      have hx' : x ∈ (sb.letters.erase sb.center_letter).sort (· ≤ ·) :=
        hls.subset (List.mem_toFinset.mp hx)
      exact (Finset.mem_sort _).mp hx'
    refine ⟨?_, Finset.mem_insert_self _ _⟩
    intro x hx
    rcases Finset.mem_insert.mp hx with rfl | hx'
    · exact hc
    · exact Finset.mem_of_mem_erase (hsub hx')
  · rintro ⟨hsub, hmemT⟩
    have hTe : T.erase sb.center_letter
        ⊆ ((sb.letters.erase sb.center_letter).sort (· ≤ ·)).toFinset := by
      intro x hx
      rw [List.mem_toFinset, Finset.mem_sort]
      exact Finset.erase_subset_erase _ hsub hx
    obtain ⟨s, hsl, hs⟩ := exists_sublist_toFinset hTe
    exact ⟨s, hsl, by rw [hs, Finset.insert_erase hmemT]⟩

theorem nodup_letter_subsets (sb : SpellingBee) : sb.letter_subsets.Nodup := by
  unfold SpellingBee.letter_subsets
  rw [sortedLetters_eq_sort]
  refine List.Nodup.map_on ?_ (nodup_powerset (Finset.sort_nodup _ _))
  intro x hx y hy hxy
  have hxs := mem_powerset.mp hx
  have hys := mem_powerset.mp hy
  have hcx : sb.center_letter ∉ x.toFinset := by
    intro hmem
    exact Finset.not_mem_erase _ _
      ((Finset.mem_sort _).mp (hxs.subset (List.mem_toFinset.mp hmem)))
  have hcy : sb.center_letter ∉ y.toFinset := by
    intro hmem
    exact Finset.not_mem_erase _ _
      ((Finset.mem_sort _).mp (hys.subset (List.mem_toFinset.mp hmem)))
  have hfin : x.toFinset = y.toFinset := by
    rw [← Finset.erase_insert hcx, ← Finset.erase_insert hcy, hxy]
  exact sublist_eq_of_toFinset_eq hxs hys (Finset.sort_nodup _ _) hfin

theorem length_letter_subsets (sb : SpellingBee) :
    sb.letter_subsets.length = 2 ^ (sb.letters.erase sb.center_letter).card := by
  unfold SpellingBee.letter_subsets
  rw [sortedLetters_eq_sort, List.length_map, length_powerset,
    Finset.length_sort]

theorem letter_subsets_toFinset {sb : SpellingBee}
    (hc : sb.center_letter ∈ sb.letters) :
    sb.letter_subsets.toFinset
      = sb.letters.powerset.filter (fun T => sb.center_letter ∈ T) := by
  ext T
  rw [List.mem_toFinset, mem_letter_subsets hc, Finset.mem_filter,
    Finset.mem_powerset]

/-! ### Adding a word to the index only increases every lookup -/

theorem lookupVal_addWordToIndex (idx : Index) (w : Word) (k : Finset Char) :
    lookupVal idx k ≤ lookupVal (addWordToIndex idx w) k := by
  unfold addWordToIndex
  by_cases hP : (findEntry idx w.letters).isSome
  · rw [if_pos hP]
    unfold lookupVal
    rw [findEntry_map_addword]
    rcases h : findEntry idx k with _ | ls
    · simp
    · by_cases hkw : k = w.letters <;> simp [hkw, LetterSet.add_word]
  · rw [if_neg hP]
    unfold lookupVal
    rw [findEntry_map_addword, findEntry_append]
    rcases h : findEntry idx k with _ | ls
    · simp
    · by_cases hkw : k = w.letters <;> simp [hkw, LetterSet.add_word]

/-! ### Concrete fixtures used by witnesses and counterexamples -/

/-- A seven-letter puzzle alphabet used in concrete examples. -/
def exampleLetters : Finset Char := {'a', 'b', 'c', 'd', 'e', 'f', 'g'}

/-- The index obtained by parsing the one-word list `["badge"]`
(`badge` is worth 5 points). -/
def exampleIdx : Index := (parseWords ["badge".toList]).all_letter_sets

/-! ### Claim theorems -/

/-- C9: for every duplicate-free list `xs` of length `n`, `powerset xs` yields
exactly `2 ^ n` subsets, enumerating every subset of the input exactly once:
its members are exactly the sublists of `xs`, the enumeration has no
duplicates, two enumerated lists with the same underlying set are equal, and
every subset of `xs`'s elements is realized. -/
theorem claim_C9 {α : Type} [DecidableEq α] (xs : List α) (h : xs.Nodup) :
    (powerset xs).length = 2 ^ xs.length ∧
    (powerset xs).Nodup ∧
    (∀ s : List α, s ∈ powerset xs ↔ List.Sublist s xs) ∧
    (∀ s t : List α, s ∈ powerset xs → t ∈ powerset xs →
      s.toFinset = t.toFinset → s = t) ∧
    (∀ u : Finset α, u ⊆ xs.toFinset → ∃ s ∈ powerset xs, s.toFinset = u) := by
  refine ⟨length_powerset xs, nodup_powerset h, fun s => mem_powerset, ?_, ?_⟩
  · intro s t hs ht hst
    exact sublist_eq_of_toFinset_eq (mem_powerset.mp hs) (mem_powerset.mp ht) h
      hst
  · intro u hu
    obtain ⟨s, hsl, hs⟩ := exists_sublist_toFinset hu
    exact ⟨s, mem_powerset.mpr hsl, hs⟩

/-- Witness for C9 at the six non-center letters of a concrete puzzle. -/
theorem claim_C9_witness :
    (['b', 'c', 'd', 'e', 'f', 'g'] : List Char).Nodup ∧
    (powerset (['b', 'c', 'd', 'e', 'f', 'g'] : List Char)).length = 2 ^ 6 ∧
    ([] : List Char) ∈ powerset (['b', 'c', 'd', 'e', 'f', 'g'] : List Char) :=
  ⟨by decide, (claim_C9 _ (by decide)).1,
    ((claim_C9 _ (by decide)).2.2.1 []).mpr (List.nil_sublist _)⟩

/-- C2: the word classifier's score follows the fixed table: length 1–3 gives
0, length exactly 4 gives 1, length greater than 4 gives the length plus an
extra 7 exactly when the word has 7 or more distinct letters. -/
theorem claim_C2 (w : List Char) :
    ((1 ≤ w.length ∧ w.length ≤ 3) → (Word.word_val w).1 = 0) ∧
    (w.length = 4 → (Word.word_val w).1 = 1) ∧
    (4 < w.length →
      (Word.word_val w).1
        = w.length + (if 7 ≤ w.toFinset.card then 7 else 0)) := by
  refine ⟨?_, ?_, ?_⟩ <;> intro h <;>
    simp only [Word.word_val] <;> split_ifs <;> omega

/-- Witness for C2 at `"bat"`, `"fore"` and `"florid"`. -/
theorem claim_C2_witness :
    ((1 ≤ "bat".toList.length ∧ "bat".toList.length ≤ 3) ∧
      (Word.word_val "bat".toList).1 = 0) ∧
    ("fore".toList.length = 4 ∧ (Word.word_val "fore".toList).1 = 1) ∧
    (4 < "florid".toList.length ∧
      (Word.word_val "florid".toList).1
        = "florid".toList.length
            + (if 7 ≤ "florid".toList.toFinset.card then 7 else 0)) :=
  ⟨⟨by decide, (claim_C2 "bat".toList).1 (by decide)⟩,
    ⟨by decide, (claim_C2 "fore".toList).2.1 (by decide)⟩,
    ⟨by decide, (claim_C2 "florid".toList).2.2 (by decide)⟩⟩

/-- C1: for every puzzle (7 letters, center among them) and every index,
`evaluate` sets the puzzle's score to the sum of `lookupVal` over all subsets
of the letters containing the center letter (absent lookups contributing 0),
and the enumeration produces exactly 64 duplicate-free candidate sets of sizes
1 to 7, all containing the center letter. -/
theorem claim_C1 (letters : Finset Char) (c : Char) (idx : Index)
    (hc : c ∈ letters) (hcard : letters.card = 7) :
    ((SpellingBee.init letters c).evaluate idx).val
        = ∑ S ∈ letters.powerset.filter (fun S => c ∈ S), lookupVal idx S ∧
    (SpellingBee.init letters c).letter_subsets.length = 64 ∧
    (SpellingBee.init letters c).letter_subsets.Nodup ∧
    (∀ S ∈ (SpellingBee.init letters c).letter_subsets,
      c ∈ S ∧ 1 ≤ S.card ∧ S.card ≤ 7) := by
  have hcb : (SpellingBee.init letters c).center_letter
      ∈ (SpellingBee.init letters c).letters := hc
  refine ⟨?_, ?_, nodup_letter_subsets _, ?_⟩
  · rw [evaluate_val]
    have h0 : (SpellingBee.init letters c).val = 0 := rfl
    rw [h0, Nat.zero_add, ← List.sum_toFinset _ (nodup_letter_subsets _),
      letter_subsets_toFinset hcb]
    rfl
  · rw [length_letter_subsets]
    have h6 : ((SpellingBee.init letters c).letters.erase
        (SpellingBee.init letters c).center_letter).card = 6 := by
      show (letters.erase c).card = 6
      rw [Finset.card_erase_of_mem hc, hcard]
    rw [h6]
    norm_num
  · intro S hS
    obtain ⟨hsub, hmem⟩ := (mem_letter_subsets hcb).mp hS
    exact ⟨hmem, Finset.card_pos.mpr ⟨c, hmem⟩,
      hcard ▸ Finset.card_le_card hsub⟩

/-- Witness for C1 at a concrete puzzle and the `["badge"]` index. -/
theorem claim_C1_witness :
    (('a' : Char) ∈ exampleLetters ∧ exampleLetters.card = 7) ∧
    ((SpellingBee.init exampleLetters 'a').evaluate exampleIdx).val
      = ∑ S ∈ exampleLetters.powerset.filter (fun S => 'a' ∈ S),
          lookupVal exampleIdx S :=
  ⟨⟨by decide, by decide⟩,
    (claim_C1 exampleLetters 'a' exampleIdx (by decide) (by decide)).1⟩

/-- C4 (as stated) is false: evaluating the same fresh puzzle twice against
the unchanged index does not give the same score — `evaluate` accumulates
`val` without resetting it, so the score doubles. -/
theorem counterexample_C4 :
    (((SpellingBee.init exampleLetters 'a').evaluate exampleIdx).evaluate
          exampleIdx).val
      ≠ ((SpellingBee.init exampleLetters 'a').evaluate exampleIdx).val := by
  decide

/-- C4 amended: evaluation is additive rather than idempotent — evaluating a
freshly constructed puzzle twice against an unchanged index yields exactly
twice the score of evaluating it once. -/
theorem claim_C4 (letters : Finset Char) (c : Char) (idx : Index) :
    (((SpellingBee.init letters c).evaluate idx).evaluate idx).val
      = 2 * ((SpellingBee.init letters c).evaluate idx).val := by
  rw [evaluate_val ((SpellingBee.init letters c).evaluate idx) idx,
    evaluate_letter_subsets, evaluate_val]
  have h0 : (SpellingBee.init letters c).val = 0 := rfl
  rw [h0]
  omega

/-- C8: if a single word whose letter set is a subset of the puzzle's letters
and contains the center letter is added to the index, the evaluated score does
not decrease. -/
theorem claim_C8 (sb : SpellingBee) (idx : Index) (w : Word)
    (hsub : w.letters ⊆ sb.letters) (hc : sb.center_letter ∈ w.letters) :
    (sb.evaluate idx).val ≤ (sb.evaluate (addWordToIndex idx w)).val := by
  rw [evaluate_val, evaluate_val]
  exact Nat.add_le_add_left
    (List.sum_le_sum fun k _ => lookupVal_addWordToIndex idx w k) _

/-- Witness for C8: adding `"faced"` to the `["badge"]` index. -/
theorem claim_C8_witness :
    ((Word.init "faced".toList).letters
        ⊆ (SpellingBee.init exampleLetters 'a').letters ∧
      (SpellingBee.init exampleLetters 'a').center_letter
        ∈ (Word.init "faced".toList).letters) ∧
    ((SpellingBee.init exampleLetters 'a').evaluate exampleIdx).val
      ≤ ((SpellingBee.init exampleLetters 'a').evaluate
          (addWordToIndex exampleIdx (Word.init "faced".toList))).val :=
  ⟨⟨by decide, by decide⟩, claim_C8 _ _ _ (by decide) (by decide)⟩

/-- C5 (as stated) is false: the parsing loop checks only for the letter
`'s'`, not for membership in the admissible alphabet, so the word `brave1` —
whose character `'1'` is outside the 25-letter alphabet — is nevertheless
indexed, appears in a letter-set entry, and contributes 6 points. -/
theorem counterexample_C5 :
    ('1' ∉ admissibleSet) ∧
    ((parseWords ["brave1".toList]).all_letter_sets.map
        (fun p => p.2.words.map Word.word)) = [["brave1".toList]] ∧
    lookupVal (parseWords ["brave1".toList]).all_letter_sets
        "brave1".toList.toFinset = 6 :=
  ⟨by decide, by decide, by decide⟩

/-- C5 amended: a word containing the excluded letter `'s'` is silently
excluded from the index, but that is the only alphabet-related check — a word
passing the three-condition filter (valuable, at most 7 distinct letters, no
`'s'`) is added to `valuable_words` and the index even if it contains other
characters outside the admissible alphabet. -/
theorem claim_C5 :
    (∀ (st : ParseState) (w : List Char),
      's' ∈ (Word.init w).letters → parseStep st w = st) ∧
    (∀ (st : ParseState) (w : List Char),
      (Word.init w).is_valuable → (Word.init w).n_letters ≤ 7 →
      's' ∉ (Word.init w).letters →
      (parseStep st w).valuable_words
        = st.valuable_words ++ [Word.init w]) := by
  constructor
  · intro st w hs
    show (if (Word.init w).is_valuable ∧ (Word.init w).n_letters ≤ 7
        ∧ 's' ∉ (Word.init w).letters then _ else st) = st
    rw [if_neg]
    intro hcond
    exact hcond.2.2 hs
  · intro st w h1 h2 h3
    show (if (Word.init w).is_valuable ∧ (Word.init w).n_letters ≤ 7
        ∧ 's' ∉ (Word.init w).letters then _ else st).valuable_words = _
    rw [if_pos ⟨h1, h2, h3⟩]

/-- Witness for C5: `stress` (containing `'s'`) is dropped; `brave1` passes
the filter although `'1'` is inadmissible. -/
theorem claim_C5_witness :
    ('s' ∈ (Word.init "stress".toList).letters ∧
      parseStep ⟨[], [], []⟩ "stress".toList = ⟨[], [], []⟩) ∧
    ((Word.init "brave1".toList).is_valuable = true ∧
      (Word.init "brave1".toList).n_letters ≤ 7 ∧
      's' ∉ (Word.init "brave1".toList).letters ∧
      (parseStep ⟨[], [], []⟩ "brave1".toList).valuable_words
        = [] ++ [Word.init "brave1".toList]) :=
  ⟨⟨by decide, claim_C5.1 ⟨[], [], []⟩ "stress".toList (by decide)⟩,
    ⟨by decide, by decide, by decide,
      claim_C5.2 ⟨[], [], []⟩ "brave1".toList (by decide) (by decide)
        (by decide)⟩⟩

/-- C6 (as stated) is false: a literal 1-letter input word scores 0, so it
fails the `is_valuable` filter and the loop body — including the diagnostic
`print`, which sits inside the filtered branch — never runs: no message is
emitted for `"a"` (and it is indeed excluded from the index). -/
theorem counterexample_C6 :
    (['a'] : List Char).length = 1 ∧
    (parseWords [['a']]).messages = [] ∧
    (parseWords [['a']]).all_letter_sets = [] ∧
    (parseWords [['a']]).valuable_words = [] :=
  ⟨by decide, by decide, by decide, by decide⟩

/-- C6 amended: a 1-letter input word is classified normally with score 0 and
is therefore silently excluded from the index, with no diagnostic emitted; the
one-letter diagnostic fires instead exactly for words that pass the filter
with exactly one distinct letter (e.g. `aaaa`), and those words are flagged
while still being appended to `valuable_words` (and hence indexed). -/
theorem claim_C6 :
    (∀ (st : ParseState) (w : List Char), w.length = 1 →
      (Word.init w).val = 0 ∧ parseStep st w = st) ∧
    (∀ (st : ParseState) (w : List Char),
      (Word.init w).is_valuable → (Word.init w).n_letters = 1 →
      's' ∉ (Word.init w).letters →
      (parseStep st w).messages = st.messages ++ [w] ∧
      (parseStep st w).valuable_words
        = st.valuable_words ++ [Word.init w]) := by
  constructor
  · intro st w hlen
    have hval : (Word.init w).val = 0 := by
      show (Word.word_val w).1 = 0
      simp only [Word.word_val]
      split_ifs <;> omega
    refine ⟨hval, ?_⟩
    show (if (Word.init w).is_valuable ∧ (Word.init w).n_letters ≤ 7
        ∧ 's' ∉ (Word.init w).letters then _ else st) = st
    rw [if_neg]
    intro hcond
    have hv : (Word.init w).val > 0 := of_decide_eq_true hcond.1
    omega
  · intro st w h1 hn h3
    have h2 : (Word.init w).n_letters ≤ 7 := by omega
    constructor
    · show (if (Word.init w).is_valuable ∧ (Word.init w).n_letters ≤ 7
          ∧ 's' ∉ (Word.init w).letters then _ else st).messages = _
      rw [if_pos ⟨h1, h2, h3⟩]
      show (if (Word.init w).n_letters = 1 then
          st.messages ++ [(Word.init w).word] else st.messages) = _
      rw [if_pos hn]
      rfl
    · show (if (Word.init w).is_valuable ∧ (Word.init w).n_letters ≤ 7
          ∧ 's' ∉ (Word.init w).letters then _ else st).valuable_words = _
      rw [if_pos ⟨h1, h2, h3⟩]

/-- Witness for C6: the word `"a"` is silently dropped, the word `"aaaa"` is
flagged and indexed. -/
theorem claim_C6_witness :
    ((['a'] : List Char).length = 1 ∧
      (Word.init ['a']).val = 0 ∧ parseStep ⟨[], [], []⟩ ['a'] = ⟨[], [], []⟩) ∧
    ((Word.init "aaaa".toList).is_valuable = true ∧
      (Word.init "aaaa".toList).n_letters = 1 ∧
      's' ∉ (Word.init "aaaa".toList).letters ∧
      (parseStep ⟨[], [], []⟩ "aaaa".toList).messages = [] ++ ["aaaa".toList]) :=
  ⟨⟨by decide, claim_C6.1 ⟨[], [], []⟩ ['a'] (by decide)⟩,
    ⟨by decide, by decide, by decide,
      (claim_C6.2 ⟨[], [], []⟩ "aaaa".toList (by decide) (by decide)
        (by decide)).1⟩⟩

/-! ### Ranking -/

instance : IsTotal SpellingBee puzzleLE :=
  ⟨fun a b => by
    rcases Nat.lt_trichotomy a.val b.val with h | h | h
    · exact Or.inr (Or.inl h)
    · rcases le_total a.key b.key with hk | hk
      · exact Or.inl (Or.inr ⟨h, hk⟩)
      · exact Or.inr (Or.inr ⟨h.symm, hk⟩)
    · exact Or.inl (Or.inl h)⟩

instance : IsTrans SpellingBee puzzleLE :=
  ⟨fun a b c hab hbc => by
    rcases hab with h1 | ⟨h1, h1k⟩ <;> rcases hbc with h2 | ⟨h2, h2k⟩
    · exact Or.inl (by omega)
    · exact Or.inl (by omega)
    · exact Or.inl (by omega)
    · exact Or.inr ⟨h1.trans h2, h1k.trans h2k⟩⟩

instance : IsTotal Word wordLE :=
  ⟨fun a b => by
    rcases Nat.lt_trichotomy a.val b.val with h | h | h
    · exact Or.inr (Or.inl h)
    · rcases le_total a.word b.word with hk | hk
      · exact Or.inl (Or.inr ⟨h, hk⟩)
      · exact Or.inr (Or.inr ⟨h.symm, hk⟩)
    · exact Or.inl (Or.inl h)⟩

instance : IsTrans Word wordLE :=
  ⟨fun a b c hab hbc => by
    rcases hab with h1 | ⟨h1, h1k⟩ <;> rcases hbc with h2 | ⟨h2, h2k⟩
    · exact Or.inl (by omega)
    · exact Or.inl (by omega)
    · exact Or.inl (by omega)
    · exact Or.inr ⟨h1.trans h2, h1k.trans h2k⟩⟩

/-- C7: both rankings return a rearrangement of their input (the input is not
mutated — the Python code sorts a fresh list resp. uses `sorted`), sorted by
score descending with the canonical key (resp. the word text) ascending; when
the secondary keys are pairwise distinct — as they are for the puzzles of a
dict and the words of a dictionary — the order is strict, with no tie left
unresolved. -/
theorem claim_C7 :
    (∀ sbs : List SpellingBee,
      List.Perm (rankPuzzles sbs) sbs ∧
      List.Sorted puzzleLE (rankPuzzles sbs) ∧
      ((sbs.map SpellingBee.key).Nodup →
        List.Sorted puzzleLT (rankPuzzles sbs))) ∧
    (∀ ws : List Word,
      List.Perm (rankWords ws) ws ∧
      List.Sorted wordLE (rankWords ws) ∧
      ((ws.map Word.word).Nodup → List.Sorted wordLT (rankWords ws))) := by
  constructor
  · intro sbs
    refine ⟨List.perm_insertionSort _ _, List.sorted_insertionSort _ _, ?_⟩
    intro hk
    have hperm : List.Perm ((rankPuzzles sbs).map SpellingBee.key)
        (sbs.map SpellingBee.key) := (List.perm_insertionSort _ sbs).map _
    have hnd : ((rankPuzzles sbs).map SpellingBee.key).Nodup :=
      hperm.nodup_iff.mpr hk
    have hne : (rankPuzzles sbs).Pairwise (fun a b => a.key ≠ b.key) :=
      List.pairwise_map.mp hnd
    have hle : (rankPuzzles sbs).Pairwise puzzleLE :=
      List.sorted_insertionSort _ _
    refine (hle.and hne).imp ?_
    rintro a b ⟨hab, hkey⟩
    rcases hab with h | ⟨h, hk'⟩
    · exact Or.inl h
    · exact Or.inr ⟨h, lt_of_le_of_ne hk' hkey⟩
  · intro ws
    refine ⟨List.perm_insertionSort _ _, List.sorted_insertionSort _ _, ?_⟩
    intro hk
    have hperm : List.Perm ((rankWords ws).map Word.word)
        (ws.map Word.word) := (List.perm_insertionSort _ ws).map _
    have hnd : ((rankWords ws).map Word.word).Nodup := hperm.nodup_iff.mpr hk
    have hne : (rankWords ws).Pairwise (fun a b => a.word ≠ b.word) :=
      List.pairwise_map.mp hnd
    have hle : (rankWords ws).Pairwise wordLE := List.sorted_insertionSort _ _
    refine (hle.and hne).imp ?_
    rintro a b ⟨hab, hkey⟩
    rcases hab with h | ⟨h, hk'⟩
    · exact Or.inl h
    · exact Or.inr ⟨h, lt_of_le_of_ne hk' hkey⟩

/-- Witness for C7 on concrete two-element inputs with distinct keys. -/
theorem claim_C7_witness :
    (([SpellingBee.init exampleLetters 'a',
        SpellingBee.init exampleLetters 'b'].map SpellingBee.key).Nodup ∧
      List.Sorted puzzleLT (rankPuzzles
        [SpellingBee.init exampleLetters 'a',
          SpellingBee.init exampleLetters 'b'])) ∧
    (([Word.init "fore".toList, Word.init "badge".toList].map
        Word.word).Nodup ∧
      List.Sorted wordLT (rankWords
        [Word.init "fore".toList, Word.init "badge".toList])) :=
  ⟨⟨by decide, (claim_C7.1 _).2.2 (by decide)⟩,
    ⟨by decide, (claim_C7.2 _).2.2 (by decide)⟩⟩

/-! ### Canonical keys and `from_letters` -/

/-- Inverse of `upChar` on `'A'..'Z'` (proof-side helper, not in the source). -/
def downChar (c : Char) : Char := Char.ofNat (c.toNat + 97 - 65)

theorem adm_down_up : ∀ c ∈ admissibleSet, downChar (upChar c) = c := by decide

theorem adm_up_isUpper :
    ∀ c ∈ admissibleSet, 'A' ≤ upChar c ∧ upChar c ≤ 'Z' := by decide

theorem adm_not_isUpper : ∀ c ∈ admissibleSet, ¬('A' ≤ c ∧ c ≤ 'Z') := by
  decide

theorem mem_set2str {s : Finset Char} {x : Char} : x ∈ set2str s ↔ x ∈ s := by
  unfold set2str
  rw [sortedLetters_eq_sort]
  exact Finset.mem_sort _

theorem nodup_set2str (s : Finset Char) : (set2str s).Nodup := by
  unfold set2str
  rw [sortedLetters_eq_sort]
  exact Finset.sort_nodup _ _

theorem length_set2str (s : Finset Char) : (set2str s).length = s.card := by
  unfold set2str
  rw [sortedLetters_eq_sort]
  exact Finset.length_sort _

theorem set2str_inj {s1 s2 : Finset Char} (h : set2str s1 = set2str s2) :
    s1 = s2 := by
  ext x
  rw [← mem_set2str, h, mem_set2str]

/-- Lower-casing recovery map used to invert `get_key` (proof-side helper). -/
def recoverLower (key : List Char) : List Char :=
  key.map (fun x => if 'A' ≤ x ∧ x ≤ 'Z' then downChar x else x)

theorem recoverLower_get_key {s : Finset Char} (hs : s ⊆ admissibleSet)
    (c : Char) : recoverLower (get_key s c) = set2str s := by
  unfold get_key recoverLower
  rw [List.map_map]
  have h : ∀ x ∈ set2str s,
      ((fun x => if 'A' ≤ x ∧ x ≤ 'Z' then downChar x else x) ∘
        (fun x => if x = c then upChar x else x)) x = id x := by
    intro x hx
    have hadm : x ∈ admissibleSet := hs (mem_set2str.mp hx)
    by_cases hxc : x = c
    · simp only [Function.comp_apply, if_pos hxc, id]
      rw [if_pos (adm_up_isUpper x hadm)]
      exact adm_down_up x hadm
    · simp only [Function.comp_apply, if_neg hxc, id]
      rw [if_neg (adm_not_isUpper x hadm)]
  rw [List.map_congr_left h, List.map_id]

theorem find_upper_get_key {s : Finset Char} (hs : s ⊆ admissibleSet)
    {c : Char} (hc : c ∈ s) :
    (get_key s c).find? (fun x => decide ('A' ≤ x ∧ x ≤ 'Z'))
      = some (upChar c) := by
  unfold get_key
  have hmem : c ∈ set2str s := mem_set2str.mpr hc
  have hall : ∀ x ∈ set2str s, x ∈ admissibleSet :=
    fun x hx => hs (mem_set2str.mp hx)
  generalize set2str s = l at hmem hall
  induction l with
  | nil => cases hmem
  | cons a l ih =>
    rw [List.map_cons]
    by_cases hac : a = c
    · rw [if_pos hac, List.find?_cons_of_pos]
      · rw [hac]
      · exact decide_eq_true
          (adm_up_isUpper a (hall a (List.mem_cons_self a l)))
    · rw [if_neg hac, List.find?_cons_of_neg]
      · refine ih ?_ ?_
        · rcases List.mem_cons.mp hmem with h | h
          · exact absurd h.symm hac
          · exact h
        · intro x hx
          exact hall x (List.mem_cons_of_mem _ hx)
      · simp [adm_not_isUpper a (hall a (List.mem_cons_self a l))]

theorem upChar_inj {c1 c2 : Char} (h1 : c1 ∈ admissibleSet)
    (h2 : c2 ∈ admissibleSet) (h : upChar c1 = upChar c2) : c1 = c2 := by
  rw [← adm_down_up c1 h1, h, adm_down_up c2 h2]

theorem get_key_inj {s1 s2 : Finset Char} {c1 c2 : Char}
    (hs1 : s1 ⊆ admissibleSet) (hs2 : s2 ⊆ admissibleSet)
    (hc1 : c1 ∈ s1) (hc2 : c2 ∈ s2)
    (h : get_key s1 c1 = get_key s2 c2) : s1 = s2 ∧ c1 = c2 := by
  have hset : set2str s1 = set2str s2 := by
    rw [← recoverLower_get_key hs1 c1, ← recoverLower_get_key hs2 c2, h]
  refine ⟨set2str_inj hset, ?_⟩
  have hfind := find_upper_get_key hs1 hc1
  rw [h, find_upper_get_key hs2 hc2] at hfind
  exact upChar_inj (hs1 hc1) (hs2 hc2) (Option.some.inj hfind).symm

theorem foldl_from_letters (S : Finset Char) :
    ∀ (ls : List Char) (d : List (List Char × SpellingBee)),
      (∀ x ∈ ls, ∀ p ∈ d, p.1 ≠ get_key S x) →
      ls.Pairwise (fun x y => get_key S x ≠ get_key S y) →
      ls.foldl (fun d letter => dictInsert d (get_key S letter)
          (SpellingBee.init S letter)) d
        = d ++ ls.map (fun c => (get_key S c, SpellingBee.init S c)) := by
  intro ls
  induction ls with
  | nil =>
    intro d _ _
    simp
  | cons a ls ih =>
    intro d hfresh hpw
    rw [List.foldl_cons]
    have hnone : d.find? (fun p => decide (p.1 = get_key S a)) = none :=
      List.find?_eq_none.mpr
        (fun p hp => by
          simp [hfresh a (List.mem_cons_self a ls) p hp])
    have hstep : dictInsert d (get_key S a) (SpellingBee.init S a)
        = d ++ [(get_key S a, SpellingBee.init S a)] := by
      unfold dictInsert
      simp [hnone]
    rw [hstep, ih]
    · simp
    · intro x hx p hp
      rcases List.mem_append.mp hp with hpd | hpa
      · exact hfresh x (List.mem_cons_of_mem _ hx) p hpd
      · have hpe : p = (get_key S a, SpellingBee.init S a) := by
          simpa using hpa
        rw [hpe]
        exact (List.pairwise_cons.mp hpw).1 x hx
    · exact (List.pairwise_cons.mp hpw).2

theorem from_letters_eq {S : Finset Char} (hS : S ⊆ admissibleSet) :
    SpellingBee.from_letters S
      = (sortedLetters S).map (fun c => (get_key S c, SpellingBee.init S c)) := by
  unfold SpellingBee.from_letters
  have hnd : (sortedLetters S).Nodup := by
    rw [sortedLetters_eq_sort]
    exact Finset.sort_nodup _ _
  rw [foldl_from_letters S (sortedLetters S) []]
  · simp
  · intro x _ p hp
    cases hp
  · refine List.Pairwise.imp_of_mem ?_ hnd
    intro a b ha hb hne hkeq
    have haS : a ∈ S := by
      rw [sortedLetters_eq_sort] at ha
      exact (Finset.mem_sort _).mp ha
    have hbS : b ∈ S := by
      rw [sortedLetters_eq_sort] at hb
      exact (Finset.mem_sort _).mp hb
    exact hne (get_key_inj hS hS haS hbS hkeq).2

/-- C3: for every admissible 7-letter set, `from_letters` yields exactly 7
puzzles — one per choice of center letter, with pairwise distinct canonical
keys and pairwise distinct center letters, all sharing the letter set — and
`get_key` is injective over admissible `(letters, centerLetter)` pairs, so the
key-indexed dict holds all 7. -/
theorem claim_C3 :
    (∀ S : Finset Char, S ⊆ admissibleSet → S.card = 7 →
      (SpellingBee.from_letters S).length = 7 ∧
      ((SpellingBee.from_letters S).map Prod.fst).Nodup ∧
      ((SpellingBee.from_letters S).map
        (fun p => p.2.center_letter)).Nodup ∧
      (∀ p ∈ SpellingBee.from_letters S,
        p.2.letters = S ∧ p.2.center_letter ∈ S ∧ p.1 = p.2.key) ∧
      (∀ c ∈ S, ∃ p ∈ SpellingBee.from_letters S,
        p.2.center_letter = c ∧ p.2.letters = S)) ∧
    (∀ (s1 s2 : Finset Char) (c1 c2 : Char),
      s1 ⊆ admissibleSet → s2 ⊆ admissibleSet → c1 ∈ s1 → c2 ∈ s2 →
      get_key s1 c1 = get_key s2 c2 → s1 = s2 ∧ c1 = c2) := by
  constructor
  · intro S hS hcard
    have hnd : (sortedLetters S).Nodup := by
      rw [sortedLetters_eq_sort]
      exact Finset.sort_nodup _ _
    have hmemS : ∀ x ∈ sortedLetters S, x ∈ S := by
      intro x hx
      rw [sortedLetters_eq_sort] at hx
      exact (Finset.mem_sort _).mp hx
    refine ⟨?_, ?_, ?_, ?_, ?_⟩
    · rw [from_letters_eq hS, List.length_map, sortedLetters_eq_sort,
        Finset.length_sort, hcard]
    · rw [from_letters_eq hS, List.map_map]
      refine List.Nodup.map_on ?_ hnd
      intro x hx y hy hxy
      exact (get_key_inj hS hS (hmemS x hx) (hmemS y hy) hxy).2
    · rw [from_letters_eq hS, List.map_map]
      have hid : ∀ a ∈ sortedLetters S,
          ((fun p => p.2.center_letter) ∘
            fun c => (get_key S c, SpellingBee.init S c)) a = id a :=
        fun a _ => rfl
      rw [List.map_congr_left hid, List.map_id]
      exact hnd
    · intro p hp
      rw [from_letters_eq hS] at hp
      obtain ⟨c, hc, rfl⟩ := List.mem_map.mp hp
      exact ⟨rfl, hmemS c hc, rfl⟩
    · intro c hc
      refine ⟨(get_key S c, SpellingBee.init S c), ?_, rfl, rfl⟩
      rw [from_letters_eq hS]
      refine List.mem_map.mpr ⟨c, ?_, rfl⟩
      rw [sortedLetters_eq_sort]
      exact (Finset.mem_sort _).mpr hc
  · intro s1 s2 c1 c2 hs1 hs2 hc1 hc2 h
    exact get_key_inj hs1 hs2 hc1 hc2 h

/-- Witness for C3 at the concrete seven-letter set `{a..g}`. -/
theorem claim_C3_witness :
    (exampleLetters ⊆ admissibleSet ∧ exampleLetters.card = 7) ∧
    (SpellingBee.from_letters exampleLetters).length = 7 :=
  ⟨⟨by decide, by decide⟩,
    (claim_C3.1 exampleLetters (by decide) (by decide)).1⟩

/-! ### Index invariants and uniqueness of `get_words` -/

theorem findEntry_eq_none {idx : Index} {k : Finset Char} :
    findEntry idx k = none ↔ ∀ p ∈ idx, p.1 ≠ k := by
  unfold findEntry
  rw [Option.map_eq_none', List.find?_eq_none]
  constructor <;> intro h p hp <;> simpa using h p hp

theorem findEntry_some_mem {idx : Index} {k : Finset Char} {ls : LetterSet}
    (h : findEntry idx k = some ls) : (k, ls) ∈ idx := by
  unfold findEntry at h
  rcases hf : idx.find? (fun p => decide (p.1 = k)) with _ | e
  · rw [hf] at h
    cases h
  · rw [hf] at h
    have he := List.mem_of_find?_eq_some hf
    have hpk : e.1 = k := by
      have hb := List.find?_some hf
      simpa using hb
    have hls : e.2 = ls := by simpa using h
    have : e = (k, ls) := Prod.ext hpk hls
    rwa [this] at he

theorem entry_eq_of_keys_nodup {idx : Index}
    (h : (idx.map Prod.fst).Nodup) {p q : Finset Char × LetterSet}
    (hp : p ∈ idx) (hq : q ∈ idx) (hk : p.1 = q.1) : p = q := by
  induction idx with
  | nil => cases hp
  | cons a l ih =>
    rw [List.map_cons, List.nodup_cons] at h
    rcases List.mem_cons.mp hp with rfl | hp' <;>
      rcases List.mem_cons.mp hq with rfl | hq'
    · rfl
    · exact absurd (List.mem_map.mpr ⟨q, hq', hk.symm⟩) h.1
    · exact absurd (List.mem_map.mpr ⟨p, hp', hk⟩) h.1
    · exact ih h.2 hp' hq'

theorem mem_dictInsert {K V : Type} [DecidableEq K] {d : List (K × V)}
    {k : K} {v : V} {q : K × V} (hq : q ∈ dictInsert d k v) :
    q ∈ d ∨ q = (k, v) := by
  unfold dictInsert at hq
  by_cases h : (d.find? (fun p => decide (p.1 = k))).isSome
  · rw [if_pos h] at hq
    obtain ⟨p, hp, rfl⟩ := List.mem_map.mp hq
    by_cases hpk : p.1 = k
    · right
      simp [hpk]
    · left
      simpa [hpk] using hp
  · rw [if_neg h] at hq
    rcases List.mem_append.mp hq with h1 | h2
    · exact Or.inl h1
    · right
      simpa using h2

theorem dictInsert_keys_nodup {K V : Type} [DecidableEq K] {d : List (K × V)}
    {k : K} {v : V} (h : (d.map Prod.fst).Nodup) :
    ((dictInsert d k v).map Prod.fst).Nodup := by
  unfold dictInsert
  by_cases hP : (d.find? (fun p => decide (p.1 = k))).isSome
  · rw [if_pos hP, List.map_map]
    have he : ∀ p ∈ d,
        (Prod.fst ∘ fun p => if p.1 = k then (k, v) else p) p = Prod.fst p := by
      intro p _
      by_cases hpk : p.1 = k <;> simp [hpk]
    rw [List.map_congr_left he]
    exact h
  · rw [if_neg hP, List.map_append, List.nodup_append]
    refine ⟨h, List.nodup_singleton _, ?_⟩
    intro a ha hb
    have hak : a = k := by simpa using hb
    subst hak
    obtain ⟨p, hp, hpk⟩ := List.mem_map.mp ha
    have hnone := Option.not_isSome_iff_eq_none.mp hP
    have := List.find?_eq_none.mp hnone p hp
    simp [hpk] at this

/-- The invariant maintained by the indexing loop over the words processed so
far: entry keys are pairwise distinct, every stored word sits in the entry
keyed by its own letter set, letter sets are the sets of the stored texts,
texts come from the processed input, and each entry's texts are distinct. -/
def IndexInv (processed : List (List Char)) (idx : Index) : Prop :=
  (idx.map Prod.fst).Nodup ∧
  (∀ p ∈ idx, ∀ w ∈ p.2.words,
    w.letters = p.1 ∧ w.letters = w.word.toFinset ∧ w.word ∈ processed) ∧
  (∀ p ∈ idx, (p.2.words.map Word.word).Nodup)

/-- `IndexInv` together with: every collected valuable word is stored in the
entry keyed by its letter set. -/
def ParseInv (processed : List (List Char)) (st : ParseState) : Prop :=
  IndexInv processed st.all_letter_sets ∧
  ∀ w ∈ st.valuable_words,
    ∃ p ∈ st.all_letter_sets, p.1 = w.letters ∧ w ∈ p.2.words

theorem indexInv_mono {p1 p2 : List (List Char)} {idx : Index}
    (h : IndexInv p1 idx) (hsub : ∀ x ∈ p1, x ∈ p2) : IndexInv p2 idx :=
  ⟨h.1,
    fun p hp w hw =>
      ⟨(h.2.1 p hp w hw).1, (h.2.1 p hp w hw).2.1,
        hsub _ (h.2.1 p hp w hw).2.2⟩,
    h.2.2⟩

theorem parseInv_mono {p1 p2 : List (List Char)} {st : ParseState}
    (h : ParseInv p1 st) (hsub : ∀ x ∈ p1, x ∈ p2) : ParseInv p2 st :=
  ⟨indexInv_mono h.1 hsub, h.2⟩

theorem addWordToIndex_entries {idx : Index} {w : Word}
    {q : Finset Char × LetterSet} (hq : q ∈ addWordToIndex idx w) :
    (∃ p ∈ idx, q = if p.1 = w.letters then (p.1, p.2.add_word w) else p) ∨
    (q = (w.letters, (LetterSet.init w.letters).add_word w) ∧
      findEntry idx w.letters = none) := by
  unfold addWordToIndex at hq
  by_cases hP : (findEntry idx w.letters).isSome
  · rw [if_pos hP] at hq
    obtain ⟨p, hp, rfl⟩ := List.mem_map.mp hq
    exact Or.inl ⟨p, hp, rfl⟩
  · rw [if_neg hP] at hq
    rw [List.map_append] at hq
    rcases List.mem_append.mp hq with h1 | h2
    · obtain ⟨p, hp, rfl⟩ := List.mem_map.mp h1
      exact Or.inl ⟨p, hp, rfl⟩
    · right
      refine ⟨?_, Option.not_isSome_iff_eq_none.mp hP⟩
      simpa using h2

theorem mem_addWordToIndex {idx : Index} {w : Word}
    {p : Finset Char × LetterSet} (hp : p ∈ idx) :
    (if p.1 = w.letters then (p.1, p.2.add_word w) else p)
      ∈ addWordToIndex idx w := by
  unfold addWordToIndex
  by_cases hP : (findEntry idx w.letters).isSome
  · rw [if_pos hP]
    exact List.mem_map.mpr ⟨p, hp, rfl⟩
  · rw [if_neg hP]
    exact List.mem_map.mpr ⟨p, List.mem_append_left _ hp, rfl⟩

theorem addWordToIndex_new_entry {idx : Index} {w : Word}
    (hP : findEntry idx w.letters = none) :
    (w.letters, (LetterSet.init w.letters).add_word w)
      ∈ addWordToIndex idx w := by
  unfold addWordToIndex
  rw [if_neg (by simp [hP])]
  refine List.mem_map.mpr
    ⟨(w.letters, LetterSet.init w.letters), List.mem_append_right _ ?_, ?_⟩
  · simp
  · simp

theorem addWordToIndex_keys_nodup {idx : Index} {w : Word}
    (h : (idx.map Prod.fst).Nodup) :
    ((addWordToIndex idx w).map Prod.fst).Nodup := by
  unfold addWordToIndex
  by_cases hP : (findEntry idx w.letters).isSome
  · rw [if_pos hP, List.map_map]
    have he : ∀ p ∈ idx,
        (Prod.fst ∘ fun p => if p.1 = w.letters then (p.1, p.2.add_word w)
          else p) p = Prod.fst p := by
      intro p _
      by_cases hpk : p.1 = w.letters <;> simp [hpk]
    rw [List.map_congr_left he]
    exact h
  · rw [if_neg hP, List.map_map]
    have he : ∀ p ∈ idx ++ [(w.letters, LetterSet.init w.letters)],
        (Prod.fst ∘ fun p => if p.1 = w.letters then (p.1, p.2.add_word w)
          else p) p = Prod.fst p := by
      intro p _
      by_cases hpk : p.1 = w.letters <;> simp [hpk]
    rw [List.map_congr_left he, List.map_append, List.nodup_append]
    refine ⟨h, List.nodup_singleton _, ?_⟩
    intro a ha hb
    have hak : a = w.letters := by simpa using hb
    subst hak
    obtain ⟨p, hp, hpk⟩ := List.mem_map.mp ha
    exact (findEntry_eq_none.mp (Option.not_isSome_iff_eq_none.mp hP) p hp) hpk

theorem addWordToIndex_IndexInv {processed : List (List Char)} {idx : Index}
    {w : Word} (h : IndexInv processed idx)
    (hw1 : w.letters = w.word.toFinset) (hw2 : w.word ∈ processed)
    (hfresh : ∀ p ∈ idx, ∀ x ∈ p.2.words, x.word ≠ w.word) :
    IndexInv processed (addWordToIndex idx w) := by
  obtain ⟨hkeys, hfields, htexts⟩ := h
  refine ⟨addWordToIndex_keys_nodup hkeys, ?_, ?_⟩
  · intro q hq x hx
    rcases addWordToIndex_entries hq with ⟨p, hp, rfl⟩ | ⟨rfl, _⟩
    · by_cases hpk : p.1 = w.letters
      · rw [if_pos hpk] at hx ⊢
        rcases List.mem_append.mp hx with hold | hnew
        · exact ⟨(hfields p hp x hold).1, (hfields p hp x hold).2⟩
        · have hxw : x = w := by simpa using hnew
          subst hxw
          exact ⟨hpk.symm, hw1, hw2⟩
      · rw [if_neg hpk] at hx ⊢
        exact hfields p hp x hx
    · have hxw : x = w := by
        simpa [LetterSet.add_word, LetterSet.init] using hx
      subst hxw
      exact ⟨rfl, hw1, hw2⟩
  · intro q hq
    rcases addWordToIndex_entries hq with ⟨p, hp, rfl⟩ | ⟨rfl, _⟩
    · by_cases hpk : p.1 = w.letters
      · rw [if_pos hpk]
        show (((p.2.words ++ [w]).map Word.word)).Nodup
        rw [List.map_append, List.nodup_append]
        refine ⟨htexts p hp, by simp, ?_⟩
        intro a ha hb
        have hbw : a = w.word := by simpa using hb
        subst hbw
        obtain ⟨x, hx, hxw⟩ := List.mem_map.mp ha
        exact hfresh p hp x hx hxw
      · rw [if_neg hpk]
        exact htexts p hp
    · show ((([] ++ [w]).map Word.word)).Nodup
      simp

theorem parseStep_ParseInv {processed : List (List Char)} {st : ParseState}
    {line : List Char} (h : ParseInv processed st) (hnew : line ∉ processed) :
    ParseInv (processed ++ [line]) (parseStep st line) := by
  have hmono : ∀ x ∈ processed, x ∈ processed ++ [line] :=
    fun x hx => List.mem_append_left _ hx
  by_cases hcond : (Word.init line).is_valuable
      ∧ (Word.init line).n_letters ≤ 7 ∧ 's' ∉ (Word.init line).letters
  · have hps : parseStep st line
        = ⟨st.valuable_words ++ [Word.init line],
            addWordToIndex st.all_letter_sets (Word.init line),
            if (Word.init line).n_letters = 1 then
              st.messages ++ [(Word.init line).word] else st.messages⟩ := by
      show (if _ then _ else st) = _
      rw [if_pos hcond]
    rw [hps]
    have hfresh : ∀ p ∈ st.all_letter_sets, ∀ x ∈ p.2.words,
        x.word ≠ (Word.init line).word := by
      intro p hp x hx hcon
      have := (h.1.2.1 p hp x hx).2.2
      rw [hcon] at this
      exact hnew this
    have hidx : IndexInv (processed ++ [line])
        (addWordToIndex st.all_letter_sets (Word.init line)) :=
      addWordToIndex_IndexInv (indexInv_mono h.1 hmono) rfl
        (List.mem_append_right _ (by simp [Word.init])) hfresh
    refine ⟨hidx, ?_⟩
    intro w hw
    rcases List.mem_append.mp hw with hold | hnew'
    · obtain ⟨p, hp, hpk, hpw⟩ := h.2 w hold
      refine ⟨if p.1 = (Word.init line).letters
          then (p.1, p.2.add_word (Word.init line)) else p,
        mem_addWordToIndex hp, ?_, ?_⟩
      · by_cases hpk' : p.1 = (Word.init line).letters
        · rw [if_pos hpk']
          exact hpk
        · rw [if_neg hpk']
          exact hpk
      · by_cases hpk' : p.1 = (Word.init line).letters
        · rw [if_pos hpk']
          exact List.mem_append_left _ hpw
        · rw [if_neg hpk']
          exact hpw
    · have hwl : w = Word.init line := by simpa using hnew'
      subst hwl
      rcases hfe : findEntry st.all_letter_sets (Word.init line).letters
          with _ | ls
      · refine ⟨((Word.init line).letters,
            (LetterSet.init (Word.init line).letters).add_word
              (Word.init line)),
          addWordToIndex_new_entry hfe, rfl, ?_⟩
        simp [LetterSet.add_word, LetterSet.init]
      · have hmem := findEntry_some_mem hfe
        refine ⟨((Word.init line).letters,
            ls.add_word (Word.init line)), ?_, rfl, ?_⟩
        · have := mem_addWordToIndex (w := Word.init line) hmem
          simpa using this
        · simp [LetterSet.add_word]
  · have hps : parseStep st line = st := by
      show (if _ then _ else st) = st
      rw [if_neg hcond]
    rw [hps]
    exact parseInv_mono h hmono

theorem foldl_parseStep_ParseInv :
    ∀ (rem processed : List (List Char)) (st : ParseState),
      ParseInv processed st → (processed ++ rem).Nodup →
      ParseInv (processed ++ rem) (rem.foldl parseStep st) := by
  intro rem
  induction rem with
  | nil =>
    intro processed st h _
    simpa using h
  | cons r rem ih =>
    intro processed st h hnd
    have hr : r ∉ processed := by
      intro hmem
      exact List.disjoint_of_nodup_append hnd hmem (by simp)
    have hstep := parseStep_ParseInv h hr
    have hnd' : ((processed ++ [r]) ++ rem).Nodup := by
      rwa [List.append_assoc, List.singleton_append]
    have := ih (processed ++ [r]) (parseStep st r) hstep hnd'
    rwa [List.append_assoc, List.singleton_append] at this

theorem parseWords_ParseInv (input : List (List Char)) (hnd : input.Nodup) :
    ParseInv input (parseWords input) := by
  have h0 : ParseInv [] ⟨[], [], []⟩ := by
    refine ⟨⟨by simp, ?_, ?_⟩, ?_⟩ <;> intro p hp <;> cases hp
  have := foldl_parseStep_ParseInv input [] ⟨[], [], []⟩ h0 (by simpa using hnd)
  simpa using this

theorem foldl_evalStep_letter_sets_mem (idx : Index) :
    ∀ (keys : List (Finset Char)) (acc : SpellingBee)
      (q : Finset Char × LetterSet),
      q ∈ (keys.foldl (evalStep idx) acc).letter_sets →
      q ∈ acc.letter_sets ∨ q ∈ idx := by
  intro keys
  induction keys with
  | nil =>
    intro acc q h
    exact Or.inl h
  | cons k ks ih =>
    intro acc q h
    rw [List.foldl_cons] at h
    rcases ih _ q h with h1 | h2
    · rcases hf : findEntry idx k with _ | ls
      · unfold evalStep at h1
        rw [hf] at h1
        exact Or.inl h1
      · unfold evalStep at h1
        rw [hf] at h1
        rcases mem_dictInsert h1 with h' | h'
        · exact Or.inl h'
        · right
          rw [h']
          exact findEntry_some_mem hf
    · exact Or.inr h2

theorem foldl_evalStep_keys_nodup (idx : Index) :
    ∀ (keys : List (Finset Char)) (acc : SpellingBee),
      (acc.letter_sets.map Prod.fst).Nodup →
      (((keys.foldl (evalStep idx) acc).letter_sets.map Prod.fst)).Nodup := by
  intro keys
  induction keys with
  | nil =>
    intro acc h
    exact h
  | cons k ks ih =>
    intro acc h
    rw [List.foldl_cons]
    refine ih _ ?_
    rcases hf : findEntry idx k with _ | ls
    · unfold evalStep
      rw [hf]
      exact h
    · unfold evalStep
      rw [hf]
      exact dictInsert_keys_nodup h

/-- C10: with a duplicate-free dictionary, every indexed word is stored in
exactly one letter-set entry (the one keyed by its own letter set, and entry
keys are pairwise distinct); the matched entries of an evaluated fresh puzzle
have pairwise distinct letter sets; and `get_words` yields each word text
exactly once. -/
theorem claim_C10 (input : List (List Char)) (hnd : input.Nodup)
    (letters : Finset Char) (c : Char) :
    (((parseWords input).all_letter_sets.map Prod.fst).Nodup) ∧
    (∀ p ∈ (parseWords input).all_letter_sets, ∀ w ∈ p.2.words,
      w.letters = p.1) ∧
    (∀ w ∈ (parseWords input).valuable_words,
      ∃ p ∈ (parseWords input).all_letter_sets,
        p.1 = w.letters ∧ w ∈ p.2.words) ∧
    (∀ p ∈ (parseWords input).all_letter_sets,
      ∀ q ∈ (parseWords input).all_letter_sets,
      ∀ w : Word, w ∈ p.2.words → w ∈ q.2.words → p = q) ∧
    ((((SpellingBee.init letters c).evaluate
        (parseWords input).all_letter_sets).letter_sets.map Prod.fst).Nodup) ∧
    ((((SpellingBee.init letters c).evaluate
        (parseWords input).all_letter_sets).get_words.map Word.word).Nodup) := by
  have hinv := parseWords_ParseInv input hnd
  obtain ⟨⟨hkeys, hfields, htexts⟩, hcover⟩ := hinv
  have hmeme : ∀ q ∈ ((SpellingBee.init letters c).evaluate
      (parseWords input).all_letter_sets).letter_sets,
      q ∈ (parseWords input).all_letter_sets := by
    intro q hq
    rcases foldl_evalStep_letter_sets_mem _ _ _ q hq with h | h
    · cases h
    · exact h
  have hkeyse : ((((SpellingBee.init letters c).evaluate
      (parseWords input).all_letter_sets).letter_sets.map
        Prod.fst)).Nodup :=
    foldl_evalStep_keys_nodup _ _ _ (by simp [SpellingBee.init])
  refine ⟨hkeys, fun p hp w hw => (hfields p hp w hw).1, hcover, ?_, hkeyse,
    ?_⟩
  · intro p hp q hq w hwp hwq
    exact entry_eq_of_keys_nodup hkeys hp hq
      (((hfields p hp w hwp).1).symm.trans ((hfields q hq w hwq).1))
  · show ((((SpellingBee.init letters c).evaluate
        (parseWords input).all_letter_sets).letter_sets.flatMap
          (fun p => p.2.words)).map Word.word).Nodup
    rw [List.map_flatMap, List.nodup_flatMap]
    constructor
    · intro q hq
      exact htexts q (hmeme q hq)
    · have hne : (((SpellingBee.init letters c).evaluate
          (parseWords input).all_letter_sets).letter_sets).Pairwise
          (fun a b => a.1 ≠ b.1) := List.pairwise_map.mp hkeyse
      refine List.Pairwise.imp_of_mem ?_ hne
      intro a b ha hb hab
      intro x hxa hxb
      obtain ⟨w1, hw1, hw1x⟩ := List.mem_map.mp hxa
      obtain ⟨w2, hw2, hw2x⟩ := List.mem_map.mp hxb
      have h1 := hfields a (hmeme a ha) w1 hw1
      have h2 := hfields b (hmeme b hb) w2 hw2
      refine hab ?_
      rw [← h1.1, h1.2.1, hw1x, ← hw2x, ← h2.2.1, h2.1]

/-- Witness for C10 on the concrete two-word dictionary. -/
theorem claim_C10_witness :
    (["fore".toList, "badge".toList] : List (List Char)).Nodup ∧
    ((((SpellingBee.init exampleLetters 'a').evaluate
        (parseWords ["fore".toList, "badge".toList]).all_letter_sets).get_words.map
          Word.word).Nodup) :=
  ⟨by decide,
    (claim_C10 ["fore".toList, "badge".toList] (by decide) exampleLetters
      'a').2.2.2.2.2⟩

end SpellingBeeProof
